import Mathlib

/-!
Verification development for the Text-Rag-Pipeline repository.

The two Python modules `legacy/chunk_txt_to_csv.py` and
`notebooks/upload_chunks.py` are shallowly embedded below.  Strings are
modelled as `List Char`; the tokenizer is an external collaborator and is
modelled by arbitrary `encode : List Char → List Nat` and
`decode : List Nat → List Char` function parameters.  Python exceptions are
modelled with `Except String`.  Python treats some additional Unicode
code points as whitespace in `str.strip`, `str.split` and the regex class
`\s`; the embedding restricts the whitespace class to the six ASCII
whitespace characters, used consistently in every operation, exactly as the
single class `\s`/`str.isspace` is used consistently in the source.
-/

/-- The ASCII whitespace characters recognized by Python's `str.strip()`,
`str.split()` and the regex class `\s` (restricted to ASCII). -/
def isPySpace (c : Char) : Bool :=
  c == ' ' || c == '\t' || c == '\n' || c == '\r' ||
    c == Char.ofNat 11 || c == Char.ofNat 12

/-- Python `str.lstrip()`: drop leading whitespace. -/
def lstrip (l : List Char) : List Char := l.dropWhile isPySpace

/-- Python `str.rstrip()`: drop trailing whitespace. -/
def rstrip (l : List Char) : List Char := (l.reverse.dropWhile isPySpace).reverse

/-- Python `str.strip()`: drop leading and trailing whitespace. -/
def strip (l : List Char) : List Char := rstrip (lstrip l)

/-- Python `str.split(sep)` for a one-character separator: always returns a
non-empty list of (possibly empty) pieces. -/
def splitChar (sep : Char) : List Char → List (List Char)
  | [] => [[]]
  | c :: rest =>
      if c = sep then [] :: splitChar sep rest
      else
        match splitChar sep rest with
        | [] => [[c]]
        | s :: ss => (c :: s) :: ss

/-- Python `" ".join(pieces)`. -/
def joinSp : List (List Char) → List Char
  | [] => []
  | [x] => x
  | x :: y :: r => x ++ ' ' :: joinSp (y :: r)

/-- `text.replace("\r\n", "\n")`: left-to-right non-overlapping replacement
of the two-character sequence. -/
def replCRLFGo : Char → List Char → List Char
  | c1, [] => [c1]
  | c1, c2 :: rest =>
      if c1 = '\r' ∧ c2 = '\n' then
        '\n' :: (match rest with
          | [] => []
          | d :: rest2 => replCRLFGo d rest2)
      else c1 :: replCRLFGo c2 rest

def replCRLF : List Char → List Char
  | [] => []
  | c :: rest => replCRLFGo c rest

/-- `text.replace("\r\n", "\n").replace("\r", "\n")`: the line-break
normalization shared by both cleaners. -/
def normNL (l : List Char) : List Char :=
  (replCRLF l).map (fun c => if c = '\r' then '\n' else c)

/-- One pass of `text.replace("  ", " ")`: replace every non-overlapping
occurrence of two spaces, scanning left to right. -/
def replaceDSGo : Char → List Char → List Char
  | c1, [] => [c1]
  | c1, c2 :: rest =>
      if c1 = ' ' ∧ c2 = ' ' then
        ' ' :: (match rest with
          | [] => []
          | d :: rest2 => replaceDSGo d rest2)
      else c1 :: replaceDSGo c2 rest

def replaceDS : List Char → List Char
  | [] => []
  | c :: rest => replaceDSGo c rest

/-- Whether the text contains two consecutive spaces (`"  " in text`). -/
def hasDS : List Char → Bool
  | c1 :: c2 :: rest => (c1 == ' ' && c2 == ' ') || hasDS (c2 :: rest)
  | _ => false

/-- The loop `while "  " in text: text = text.replace("  ", " ")`, run with
fuel.  Each iteration on a text containing a double space strictly shortens
it, so fuel equal to the length reaches the loop's fixed point exactly. -/
def collapseDSAux : Nat → List Char → List Char
  | 0, s => s
  | f + 1, s => if hasDS s then collapseDSAux f (replaceDS s) else s

/-- The legacy cleaner's double-space collapsing loop. -/
def collapseDS (s : List Char) : List Char := collapseDSAux s.length s

/-- `clean_text` of `legacy/chunk_txt_to_csv.py`: normalize line breaks,
strip each line and drop empty lines, join with single spaces, collapse
double spaces, strip the ends. -/
def clean1 (text : List Char) : List Char :=
  strip (collapseDS (joinSp
    (((splitChar '\n' (normNL text)).map strip).filter (fun l => ¬ l.isEmpty))))

-- ## The upload-path cleaner (`clean_text` of `notebooks/upload_chunks.py`)

/-- Lowercase an ASCII letter, for the `re.IGNORECASE` literal matches. -/
def lowerC (c : Char) : Char :=
  if 65 ≤ c.toNat ∧ c.toNat ≤ 90 then Char.ofNat (c.toNat + 32) else c

/-- The regex class `\d` (restricted to ASCII). -/
def isDigitC (c : Char) : Bool := 48 ≤ c.toNat && c.toNat ≤ 57

/-- Case-insensitive match of a literal given in lowercase; returns the
remainder of the string on success. -/
def matchLitCI : List Char → List Char → Option (List Char)
  | [], s => some s
  | _ :: _, [] => none
  | p :: ps, c :: cs => if lowerC c = p then matchLitCI ps cs else none

/-- Matcher for `PAGE_MARKER_PATTERN`, the regex `page\s*\d+\s*of\s*\d+`
with `re.IGNORECASE`, anchored at the head of the string.  The character
classes of consecutive parts of the pattern are disjoint, so Python's
backtracking matcher agrees with this greedy scan.  Returns the remainder
after the match. -/
def matchPM (s : List Char) : Option (List Char) :=
  (matchLitCI ['p', 'a', 'g', 'e'] s).bind fun s1 =>
    let s2 := s1.dropWhile isPySpace
    if (s2.takeWhile isDigitC).isEmpty then none
    else
      let s3 := (s2.dropWhile isDigitC).dropWhile isPySpace
      (matchLitCI ['o', 'f'] s3).bind fun s4 =>
        let s5 := s4.dropWhile isPySpace
        if (s5.takeWhile isDigitC).isEmpty then none
        else some (s5.dropWhile isDigitC)

/-- `PAGE_MARKER_PATTERN.sub(" ", s)`: replace every non-overlapping match
by one space, scanning left to right.  Run with fuel; every match consumes
at least the four characters of `page` and one digit, so fuel equal to the
length of the string reaches the end exactly as `re.sub` does. -/
def subPMAux : Nat → List Char → List Char
  | 0, s => s
  | _ + 1, [] => []
  | f + 1, c :: rest =>
      match matchPM (c :: rest) with
      | some rem => ' ' :: subPMAux f rem
      | none => c :: subPMAux f rest

def subPM (s : List Char) : List Char := subPMAux s.length s

/-- The allow-list of `OCR_JUNK_PATTERN = [^A-Za-z0-9\s.,;:!?'\-()/]`:
exactly the characters NOT matched by the junk pattern. -/
def ocrAllowed (c : Char) : Bool :=
  (65 ≤ c.toNat && c.toNat ≤ 90) || (97 ≤ c.toNat && c.toNat ≤ 122) ||
    (48 ≤ c.toNat && c.toNat ≤ 57) || isPySpace c ||
    c == '.' || c == ',' || c == ';' || c == ':' || c == '!' || c == '?' ||
    c == '\'' || c == '-' || c == '(' || c == ')' || c == '/'

/-- `text.replace("\x0c", " ")` as a character map. -/
def ffToSp (c : Char) : Char := if c = Char.ofNat 12 then ' ' else c

/-- `OCR_JUNK_PATTERN.sub(" ", text)` as a character map. -/
def junkToSp (c : Char) : Char := if ocrAllowed c then c else ' '

/-- The curly apostrophe U+2019. -/
def curlyApos : Char := Char.ofNat 8217

/-- The curly opening double quote U+201C. -/
def curlyOpenQ : Char := Char.ofNat 8220

/-- The curly closing double quote U+201D. -/
def curlyCloseQ : Char := Char.ofNat 8221

/-- `text.replace("’", "'")` as a character map. -/
def aposSub (c : Char) : Char := if c = curlyApos then '\'' else c

/-- `text.replace("“", "\"")` as a character map. -/
def openqSub (c : Char) : Char := if c = curlyOpenQ then '"' else c

/-- `text.replace("”", "\"")` as a character map. -/
def closeqSub (c : Char) : Char := if c = curlyCloseQ then '"' else c

/-- `re.sub(r"\s+", " ", s)`: every maximal whitespace run becomes one
space.  The Boolean flag records whether the previous character was
whitespace (i.e. whether a run is already open). -/
def collapseWs : Bool → List Char → List Char
  | _, [] => []
  | prevWs, c :: rest =>
      if isPySpace c then
        if prevWs then collapseWs true rest else ' ' :: collapseWs true rest
      else c :: collapseWs false rest

/-- `clean_text` of `notebooks/upload_chunks.py`: normalize line breaks,
replace form feeds by spaces, strip lines and drop empty ones, join with
spaces, remove `page N of M` markers, replace characters outside the
allow-list by spaces, substitute curly quotes (in that order), collapse
whitespace runs to single spaces, strip the ends. -/
def clean2 (text : List Char) : List Char :=
  strip (collapseWs false
    (((((subPM (joinSp
      (((splitChar '\n' ((normNL text).map ffToSp)).map strip).filter
        (fun l => ¬ l.isEmpty)))).map junkToSp).map aposSub).map
      openqSub).map closeqSub))

-- ## Configuration constants (module-level in both sources)

def CHUNK_SIZE_TOKENS : Nat := 350

def CHUNK_OVERLAP_TOKENS : Nat := 70

def MIN_DOC_TOKENS_SINGLE_CHUNK : Nat := 220

def MIN_WORDS_PER_DOC : Nat := 5

def BATCH_SIZE : Nat := 100

def MAX_BYTES : Nat := 9 * 1024 * 1024

-- ## Chunking

/-- Python `range(0, n, step)` for `step > 0`: the multiples of `step`
below `n`. -/
def chunkStarts (n step : Nat) : List Nat :=
  (List.range ((n + step - 1) / step)).map (· * step)

/-- `split_into_token_chunks` of both modules, acting on the encoded token
sequence (the tokenizer itself is external): yield
`tokens[start : start + chunk_size]` for `start in range(0, len(tokens),
step)`, skipping empty slices; raise `ValueError` when `step <= 0`; yield
nothing for an empty token list (that check precedes the step guard, as in
the source). -/
def split_into_token_chunks (tokens : List Nat) (chunk_size chunk_overlap : Nat) :
    Except String (List (List Nat)) :=
  if tokens.isEmpty then .ok []
  else if chunk_size ≤ chunk_overlap then
    .error "chunk_overlap must be smaller than chunk_size"
  else
    .ok (((chunkStarts tokens.length (chunk_size - chunk_overlap)).map
      (fun s => (tokens.drop s).take chunk_size)).filter (fun w => ¬ w.isEmpty))

-- ## Identifier derivation

/-- `derive_ids_from_path` (both modules): `doc_id` is the last
underscore-separated segment of the filename stem (`parts[-1]`),
`source_group` the parent directory name.  `pathlib` is external, so the
function is modelled on the stem and parent-name strings it extracts.
`parts[-1]` is total because `str.split` always returns a non-empty
list. -/
def derive_ids_from_path (stem parent : List Char) : List Char × List Char :=
  ((splitChar '_' stem).getLastD [], parent)

/-- Decimal digits of `n`, most significant first, with fuel for
structural recursion; `n` itself is always enough fuel since `n / 10`
strictly decreases while `n ≥ 10`. -/
def natDigitsAux : Nat → Nat → List Char
  | 0, n => [Char.ofNat (48 + n % 10)]
  | f + 1, n =>
      if n < 10 then [Char.ofNat (48 + n)]
      else natDigitsAux f (n / 10) ++ [Char.ofNat (48 + n % 10)]

/-- Decimal digits of `n`, most significant first. -/
def natDigits (n : Nat) : List Char := natDigitsAux n n

/-- `f"{i:03d}"`: decimal, zero-padded to at least three digits. -/
def fmt03 (n : Nat) : List Char :=
  List.replicate (3 - (natDigits n).length) '0' ++ natDigits n

/-- The suffix `f"_c{i:03d}"` appended to `doc_id` to form `chunk_id`. -/
def chunkSuffix (i : Nat) : List Char := '_' :: 'c' :: fmt03 i

-- ## Chunk records and per-file processing

/-- A chunk record: the four properties emitted by both sinks. -/
structure Chunk where
  doc_id : List Char
  chunk_id : List Char
  source_group : List Char
  text : List Char
deriving DecidableEq, Repr

/-- Python `len(text.split())`: the number of maximal non-whitespace runs.
The flag records whether the scan is currently inside a word. -/
def countWordsAux : Bool → List Char → Nat
  | _, [] => 0
  | inWord, c :: rest =>
      if isPySpace c then countWordsAux false rest
      else (if inWord then 0 else 1) + countWordsAux true rest

def countWords (l : List Char) : Nat := countWordsAux false l

/-- The rows written by the legacy `process_file` for one document, given
the tokenizer: clean, skip if empty, emit a single chunk with the full
cleaned text below the token threshold, otherwise the sliding-window
chunks of decoded windows with 1-based 3-digit ordinals.  A `ValueError`
raised by the chunker propagates. -/
def process_file (encode : List Char → List Nat) (decode : List Nat → List Char)
    (chunk_size chunk_overlap : Nat) (stem parent raw : List Char) :
    Except String (List Chunk) :=
  if (clean1 raw).isEmpty then .ok []
  else if (encode (clean1 raw)).length < MIN_DOC_TOKENS_SINGLE_CHUNK then
    .ok [⟨(derive_ids_from_path stem parent).1,
      (derive_ids_from_path stem parent).1 ++ chunkSuffix 1,
      (derive_ids_from_path stem parent).2, clean1 raw⟩]
  else
    (split_into_token_chunks (encode (clean1 raw)) chunk_size chunk_overlap).map
      (fun ws => ws.mapIdx
        (fun i w => ⟨(derive_ids_from_path stem parent).1,
          (derive_ids_from_path stem parent).1 ++ chunkSuffix (i + 1),
          (derive_ids_from_path stem parent).2, decode w⟩))

/-- `generate_chunk_objects_from_file` of the upload module: like the
legacy `process_file` but with the upload cleaner and the additional
minimum word-count filter. -/
def generate_chunk_objects_from_file (encode : List Char → List Nat)
    (decode : List Nat → List Char) (chunk_size chunk_overlap : Nat)
    (stem parent raw : List Char) : Except String (List Chunk) :=
  if (clean2 raw).isEmpty then .ok []
  else if countWords (clean2 raw) < MIN_WORDS_PER_DOC then .ok []
  else if (encode (clean2 raw)).length < MIN_DOC_TOKENS_SINGLE_CHUNK then
    .ok [⟨(derive_ids_from_path stem parent).1,
      (derive_ids_from_path stem parent).1 ++ chunkSuffix 1,
      (derive_ids_from_path stem parent).2, clean2 raw⟩]
  else
    (split_into_token_chunks (encode (clean2 raw)) chunk_size chunk_overlap).map
      (fun ws => ws.mapIdx
        (fun i w => ⟨(derive_ids_from_path stem parent).1,
          (derive_ids_from_path stem parent).1 ++ chunkSuffix (i + 1),
          (derive_ids_from_path stem parent).2, decode w⟩))

-- ## The rotating file writer (legacy `main`)

/-- The output loop of the legacy `main`: write one document's full row
set, then check `f_out.tell() >= MAX_BYTES` and rotate if it holds.  The
first argument is the current container's rows so far; each document is a
row list (as produced by `process_file`).  A container's byte size is its
header plus its rows' serialized sizes; CSV serialization is external, so
the per-row byte count is a parameter.  Returns every container in
creation order; the last one is closed by the `finally` block. -/
def runWriter (rowBytes : Chunk → Nat) (headerBytes maxBytes : Nat) :
    List Chunk → List (List Chunk) → List (List Chunk)
  | cur, [] => [cur]
  | cur, d :: ds =>
      let cur2 := cur ++ d
      if maxBytes ≤ headerBytes + (cur2.map rowBytes).sum then
        cur2 :: runWriter rowBytes headerBytes maxBytes [] ds
      else runWriter rowBytes headerBytes maxBytes cur2 ds

/-- The containers produced by a whole legacy run over `docs`. -/
def mainContainers (rowBytes : Chunk → Nat) (headerBytes maxBytes : Nat)
    (docs : List (List Chunk)) : List (List Chunk) :=
  runWriter rowBytes headerBytes maxBytes [] docs

-- ## The batch uploader's failure capture (upload `upload_chunks`)

/-- A failed object as reported by the remote batch client.  The client
sometimes exposes the submitted properties directly (`fo.properties`),
sometimes behind an object envelope (`fo.object["properties"]`); either
may be absent.  A chunk's property mapping has four keys, so whenever it
is present it is a non-empty — hence truthy — dict. -/
structure FailedObject where
  properties : Option Chunk
  objectProps : Option Chunk

/-- The failure-capture loop of `upload_chunks`: recover each failed
object's original properties, preferring `fo.properties` and falling back
to the object envelope; objects exposing neither shape are dropped. -/
def capture_failed : List FailedObject → List Chunk
  | [] => []
  | fo :: rest =>
      match fo.properties with
      | some p => p :: capture_failed rest
      | none =>
          match fo.objectProps with
          | some p => p :: capture_failed rest
          | none => capture_failed rest

/-- The persistence step of `upload_chunks`: when any failures were
captured, write one JSON record per line to the fixed replay file
`failed_objects.jsonl`; otherwise perform no file write.  JSON
serialization is external; the file is modelled as the list of records
written, `none` meaning no file. -/
def persist_failed (failed : List Chunk) : Option (List Chunk) :=
  if failed.isEmpty then none else some failed

/-- The replay file produced by a run whose remote batch reported `fos`. -/
def replay_file (fos : List FailedObject) : Option (List Chunk) :=
  persist_failed (capture_failed fos)

/-- Decidable equality of results, for evaluating the per-file processors
on concrete inputs. -/
instance instDecEqExceptStr {α : Type} [DecidableEq α] : DecidableEq (Except String α) :=
  fun x y =>
    match x, y with
    | .ok a, .ok b =>
        if h : a = b then isTrue (by rw [h])
        else isFalse (by intro he; cases he; exact h rfl)
    | .error e, .error f =>
        if h : e = f then isTrue (by rw [h])
        else isFalse (by intro he; cases he; exact h rfl)
    | .ok _, .error _ => isFalse (by intro he; cases he)
    | .error _, .ok _ => isFalse (by intro he; cases he)

-- ## Basic lemmas about the whitespace primitives

theorem dropWhile_exists_append (p : Char → Bool) (l : List Char) :
    ∃ t, l = t ++ l.dropWhile p := by
  induction l with
  | nil => exact ⟨[], rfl⟩
  | cons c r ih =>
      by_cases h : p c
      · obtain ⟨t, ht⟩ := ih
        refine ⟨c :: t, ?_⟩
        simp [List.dropWhile, h]
        exact ht
      · exact ⟨[], by simp [List.dropWhile, h]⟩

theorem mem_dropWhile_subset {p : Char → Bool} {l : List Char} {c : Char}
    (h : c ∈ l.dropWhile p) : c ∈ l := by
  obtain ⟨t, ht⟩ := dropWhile_exists_append p l
  rw [ht]; exact List.mem_append_right t h

theorem head_dropWhile_not {p : Char → Bool} {l : List Char} {c : Char} {r : List Char}
    (h : l.dropWhile p = c :: r) : p c = false := by
  induction l with
  | nil => simp [List.dropWhile] at h
  | cons a t ih =>
      by_cases ha : p a
      · rw [List.dropWhile_cons_of_pos ha] at h; exact ih h
      · rw [List.dropWhile_cons_of_neg ha] at h
        cases h; simpa using ha

theorem dropWhile_eq_self_of_head {p : Char → Bool} {l : List Char}
    (h : ∀ c r, l = c :: r → p c = false) : l.dropWhile p = l := by
  cases l with
  | nil => rfl
  | cons c r => rw [List.dropWhile_cons_of_neg]; simpa using h c r rfl

theorem rstrip_exists_append (l : List Char) : ∃ t, l = rstrip l ++ t := by
  obtain ⟨t, ht⟩ := dropWhile_exists_append isPySpace l.reverse
  refine ⟨t.reverse, ?_⟩
  have := congrArg List.reverse ht
  simpa [rstrip] using this

theorem mem_rstrip_subset {l : List Char} {c : Char} (h : c ∈ rstrip l) : c ∈ l := by
  obtain ⟨t, ht⟩ := rstrip_exists_append l
  rw [ht]; exact List.mem_append_left t h

theorem mem_strip_subset {l : List Char} {c : Char} (h : c ∈ strip l) : c ∈ l := by
  exact mem_dropWhile_subset (mem_rstrip_subset h)

/-- The stripped string sits contiguously inside the original. -/
theorem strip_infix (l : List Char) : ∃ t u, l = t ++ strip l ++ u := by
  obtain ⟨t, ht⟩ := dropWhile_exists_append isPySpace l
  obtain ⟨u, hu⟩ := rstrip_exists_append (lstrip l)
  have hu' : lstrip l = strip l ++ u := hu
  refine ⟨t, u, ?_⟩
  calc l = t ++ lstrip l := ht
    _ = t ++ (strip l ++ u) := by rw [← hu']
    _ = t ++ strip l ++ u := by rw [List.append_assoc]

theorem strip_head_not {l : List Char} {c : Char} {r : List Char}
    (h : strip l = c :: r) : isPySpace c = false := by
  obtain ⟨t, ht⟩ := rstrip_exists_append (lstrip l)
  have h' : rstrip (lstrip l) = c :: r := h
  rw [h'] at ht
  have ht2 : List.dropWhile isPySpace l = c :: (r ++ t) := by
    simpa [lstrip] using ht
  exact head_dropWhile_not ht2

theorem strip_reverse_head_not {l : List Char} {c : Char} {r : List Char}
    (h : (strip l).reverse = c :: r) : isPySpace c = false := by
  have hrev : (strip l).reverse = (lstrip l).reverse.dropWhile isPySpace := by
    simp [strip, rstrip]
  rw [hrev] at h
  exact head_dropWhile_not h

theorem lstrip_of_stripped {l : List Char}
    (h : ∀ c r, l = c :: r → isPySpace c = false) : lstrip l = l :=
  dropWhile_eq_self_of_head h

theorem rstrip_of_stripped {l : List Char}
    (h : ∀ c r, l.reverse = c :: r → isPySpace c = false) : rstrip l = l := by
  unfold rstrip
  rw [dropWhile_eq_self_of_head h, List.reverse_reverse]

/-- `strip` is idempotent. -/
theorem strip_strip (l : List Char) : strip (strip l) = strip l := by
  have h1 : lstrip (strip l) = strip l :=
    lstrip_of_stripped (fun c r h => strip_head_not h)
  have h2 : rstrip (strip l) = strip l :=
    rstrip_of_stripped (fun c r h => strip_reverse_head_not h)
  show rstrip (lstrip (strip l)) = strip l
  rw [h1, h2]

-- ## Double-space predicate lemmas

theorem hasDS_cons {l : List Char} (c : Char) (h : hasDS l = true) :
    hasDS (c :: l) = true := by
  cases l with
  | nil => simp [hasDS] at h
  | cons c2 r => simp only [hasDS, Bool.or_eq_true] at *; right; exact h

theorem hasDS_append_left {m : List Char} (b : List Char) (h : hasDS m = true) :
    hasDS (m ++ b) = true := by
  induction m with
  | nil => simp [hasDS] at h
  | cons c rest ih =>
      cases rest with
      | nil => simp [hasDS] at h
      | cons c2 r =>
          simp only [hasDS, Bool.or_eq_true] at h
          rcases h with h | h
          · simp only [List.cons_append, hasDS, Bool.or_eq_true]; left; exact h
          · have := ih h
            simpa [hasDS] using hasDS_cons c this

theorem hasDS_append_right (m : List Char) {b : List Char} (h : hasDS b = true) :
    hasDS (m ++ b) = true := by
  induction m with
  | nil => simpa using h
  | cons c rest ih => simpa using hasDS_cons c ih

theorem hasDS_strip {l : List Char} (h : hasDS l = false) :
    hasDS (strip l) = false := by
  by_contra hc
  obtain ⟨t, u, htu⟩ := strip_infix l
  have hds : hasDS (strip l) = true := by
    cases hh : hasDS (strip l) with
    | false => exact absurd hh hc
    | true => rfl
  have : hasDS l = true := by
    rw [htu, List.append_assoc]
    exact hasDS_append_right t (hasDS_append_left u hds)
  rw [this] at h; exact Bool.noConfusion h

-- ## Lemmas about the double-space collapsing loop

theorem replaceDS_pair_eq {c1 c2 : Char} (h : c1 = ' ' ∧ c2 = ' ')
    (rest : List Char) :
    replaceDS (c1 :: c2 :: rest) = ' ' :: replaceDS rest := by
  cases rest with
  | nil => simp [replaceDS, replaceDSGo, h]
  | cons d r => simp [replaceDS, replaceDSGo, h]

theorem replaceDS_nopair_eq {c1 c2 : Char} (h : ¬ (c1 = ' ' ∧ c2 = ' '))
    (rest : List Char) :
    replaceDS (c1 :: c2 :: rest) = c1 :: replaceDS (c2 :: rest) := by
  show replaceDSGo c1 (c2 :: rest) = c1 :: replaceDSGo c2 rest
  cases rest with
  | nil => rw [replaceDSGo.eq_2, if_neg h]
  | cons d r => rw [replaceDSGo.eq_3, if_neg h]

theorem replaceDS_length_le : ∀ l : List Char, (replaceDS l).length ≤ l.length
  | [] => by simp [replaceDS]
  | [c] => by simp [replaceDS, replaceDSGo]
  | c1 :: c2 :: rest => by
      by_cases h : c1 = ' ' ∧ c2 = ' '
      · have ih := replaceDS_length_le rest
        rw [replaceDS_pair_eq h]
        simp only [List.length_cons]
        omega
      · have ih := replaceDS_length_le (c2 :: rest)
        rw [replaceDS_nopair_eq h]
        simp only [List.length_cons] at ih ⊢
        omega
termination_by l => l.length

theorem replaceDS_length_lt : ∀ {l : List Char}, hasDS l = true →
    (replaceDS l).length < l.length
  | [], h => absurd h (by decide)
  | [c], h => absurd h (by simp [hasDS])
  | c1 :: c2 :: rest, h => by
      by_cases hif : c1 = ' ' ∧ c2 = ' '
      · have hle := replaceDS_length_le rest
        rw [replaceDS_pair_eq hif]
        simp only [List.length_cons]
        omega
      · have hrec : hasDS (c2 :: rest) = true := by
          have hpair : (c1 == ' ' && c2 == ' ') = false := by
            cases hc1 : c1 == ' ' with
            | false => rfl
            | true =>
                cases hc2 : c2 == ' ' with
                | false => simp
                | true => exact absurd ⟨by simpa using hc1, by simpa using hc2⟩ hif
          have h0 : ((c1 == ' ' && c2 == ' ') || hasDS (c2 :: rest)) = true := h
          rwa [hpair, Bool.false_or] at h0
        have hlen : (replaceDS (c2 :: rest)).length < rest.length + 1 := by
          simpa using replaceDS_length_lt hrec
        rw [replaceDS_nopair_eq hif]
        simp only [List.length_cons]
        omega
termination_by l => l.length

theorem mem_replaceDS : ∀ {l : List Char} {c : Char}, c ∈ replaceDS l → c ∈ l
  | [], c, h => by simp [replaceDS] at h
  | [d], c, h => by simpa [replaceDS, replaceDSGo] using h
  | c1 :: c2 :: rest, c, h => by
      by_cases hif : c1 = ' ' ∧ c2 = ' '
      · rw [replaceDS_pair_eq hif] at h
        rcases List.mem_cons.mp h with h2 | h2
        · simp [h2, hif.1]
        · simp [mem_replaceDS h2]
      · rw [replaceDS_nopair_eq hif] at h
        rcases List.mem_cons.mp h with h2 | h2
        · simp [h2]
        · simpa using Or.inr (mem_replaceDS h2)
termination_by l => l.length

theorem hasDS_collapseDSAux {f : Nat} :
    ∀ {l : List Char}, l.length ≤ f → hasDS (collapseDSAux f l) = false := by
  induction f with
  | zero =>
      intro l hl
      have : l = [] := List.length_eq_zero.mp (Nat.le_zero.mp hl)
      subst this; simp [collapseDSAux, hasDS]
  | succ f ih =>
      intro l hl
      by_cases h : hasDS l = true
      · rw [collapseDSAux, if_pos h]
        exact ih (by have := replaceDS_length_lt h; omega)
      · rw [collapseDSAux, if_neg h]
        exact Bool.not_eq_true _ |>.mp h

theorem hasDS_collapseDS (l : List Char) : hasDS (collapseDS l) = false :=
  hasDS_collapseDSAux (Nat.le_refl _)

theorem collapseDSAux_of_not {f : Nat} {l : List Char} (h : hasDS l = false) :
    collapseDSAux f l = l := by
  cases f with
  | zero => rfl
  | succ f => rw [collapseDSAux, if_neg (by rw [h]; exact Bool.false_ne_true)]

theorem collapseDS_of_not {l : List Char} (h : hasDS l = false) :
    collapseDS l = l := collapseDSAux_of_not h

theorem mem_collapseDSAux {f : Nat} :
    ∀ {l : List Char} {c : Char}, c ∈ collapseDSAux f l → c ∈ l := by
  induction f with
  | zero => intro l c h; exact h
  | succ f ih =>
      intro l c h
      by_cases hl : hasDS l = true
      · rw [collapseDSAux, if_pos hl] at h
        exact mem_replaceDS (ih h)
      · rwa [collapseDSAux, if_neg hl] at h

theorem mem_collapseDS {l : List Char} {c : Char} (h : c ∈ collapseDS l) : c ∈ l :=
  mem_collapseDSAux h

-- ## Lemmas about splitting, joining and line-break normalization

theorem splitChar_ne_nil (sep : Char) (l : List Char) : splitChar sep l ≠ [] := by
  cases l with
  | nil => simp [splitChar]
  | cons c rest =>
      by_cases h : c = sep
      · simp [splitChar, h]
      · simp only [splitChar, if_neg h]
        cases splitChar sep rest with
        | nil => simp
        | cons s ss => simp

theorem mem_splitChar_ne_sep {sep : Char} {l : List Char} :
    ∀ {p : List Char} {c : Char}, p ∈ splitChar sep l → c ∈ p → c ≠ sep := by
  induction l with
  | nil =>
      intro p c hp hc
      simp only [splitChar, List.mem_singleton] at hp
      subst hp; simp at hc
  | cons a rest ih =>
      intro p c hp hc
      by_cases ha : a = sep
      · simp only [splitChar, if_pos ha] at hp
        rcases List.mem_cons.mp hp with rfl | hp2
        · simp at hc
        · exact ih hp2 hc
      · simp only [splitChar, if_neg ha] at hp
        cases hsc : splitChar sep rest with
        | nil => exact absurd hsc (splitChar_ne_nil sep rest)
        | cons s ss =>
            rw [hsc] at hp
            rcases List.mem_cons.mp hp with rfl | hp2
            · rcases List.mem_cons.mp hc with rfl | hc2
              · exact ha
              · exact ih (by rw [hsc]; exact List.mem_cons_self s ss) hc2
            · exact ih (by rw [hsc]; exact List.mem_cons_of_mem s hp2) hc

theorem splitChar_of_not_mem {sep : Char} {l : List Char} (h : sep ∉ l) :
    splitChar sep l = [l] := by
  induction l with
  | nil => rfl
  | cons c rest ih =>
      have hc : ¬ c = sep := fun e => h (by simp [e])
      have hr : sep ∉ rest := fun m => h (List.mem_cons_of_mem c m)
      simp only [splitChar, if_neg hc, ih hr]

theorem splitChar_append_sep (sep : Char) (l : List Char) :
    splitChar sep (l ++ [sep]) = splitChar sep l ++ [[]] := by
  induction l with
  | nil => simp [splitChar]
  | cons c rest ih =>
      by_cases hc : c = sep
      · simp [splitChar, if_pos hc, ih]
      · cases hsc : splitChar sep rest with
        | nil => exact absurd hsc (splitChar_ne_nil sep rest)
        | cons s ss => simp [splitChar, if_neg hc, ih, hsc]

theorem mem_joinSp {ps : List (List Char)} {c : Char} (h : c ∈ joinSp ps) :
    c = ' ' ∨ ∃ p ∈ ps, c ∈ p := by
  induction ps with
  | nil => simp [joinSp] at h
  | cons x r ih =>
      cases r with
      | nil => exact Or.inr ⟨x, by simp, by simpa [joinSp] using h⟩
      | cons y s =>
          rw [joinSp] at h
          rcases List.mem_append.mp h with hx | h2
          · exact Or.inr ⟨x, by simp, hx⟩
          · rcases List.mem_cons.mp h2 with rfl | h3
            · exact Or.inl rfl
            · rcases ih h3 with h4 | ⟨p, hp, hcp⟩
              · exact Or.inl h4
              · exact Or.inr ⟨p, List.mem_cons_of_mem x hp, hcp⟩

theorem replCRLF_pair_eq {c1 c2 : Char} (h : c1 = '\r' ∧ c2 = '\n')
    (rest : List Char) :
    replCRLF (c1 :: c2 :: rest) = '\n' :: replCRLF rest := by
  cases rest with
  | nil => simp [replCRLF, replCRLFGo, h]
  | cons d r => simp [replCRLF, replCRLFGo, h]

theorem replCRLF_nopair_eq {c1 c2 : Char} (h : ¬ (c1 = '\r' ∧ c2 = '\n'))
    (rest : List Char) :
    replCRLF (c1 :: c2 :: rest) = c1 :: replCRLF (c2 :: rest) := by
  show replCRLFGo c1 (c2 :: rest) = c1 :: replCRLFGo c2 rest
  cases rest with
  | nil => rw [replCRLFGo.eq_2, if_neg h]
  | cons d r => rw [replCRLFGo.eq_3, if_neg h]

theorem mem_replCRLF : ∀ {l : List Char} {c : Char}, c ∈ replCRLF l → c ∈ l
  | [], c, h => by simp [replCRLF] at h
  | [d], c, h => by simpa [replCRLF, replCRLFGo] using h
  | c1 :: c2 :: rest, c, h => by
      by_cases hif : c1 = '\r' ∧ c2 = '\n'
      · rw [replCRLF_pair_eq hif] at h
        rcases List.mem_cons.mp h with rfl | h2
        · simp [hif.2]
        · simp [mem_replCRLF h2]
      · rw [replCRLF_nopair_eq hif] at h
        rcases List.mem_cons.mp h with rfl | h2
        · simp
        · simpa using Or.inr (mem_replCRLF h2)
termination_by l => l.length

theorem not_cr_mem_normNL (l : List Char) : '\r' ∉ normNL l := by
  intro h
  unfold normNL at h
  rcases List.mem_map.mp h with ⟨a, _, ha⟩
  by_cases hA : a = '\r'
  · rw [if_pos hA] at ha; exact absurd ha (by decide)
  · rw [if_neg hA] at ha; exact hA ha

theorem replCRLF_of_not_cr : ∀ {l : List Char}, '\r' ∉ l → replCRLF l = l
  | [], _ => by simp [replCRLF]
  | [c], _ => by simp [replCRLF, replCRLFGo]
  | c1 :: c2 :: rest, h => by
      by_cases hif : c1 = '\r' ∧ c2 = '\n'
      · exact absurd (by simp [hif.1]) h
      · rw [replCRLF_nopair_eq hif,
          replCRLF_of_not_cr (fun m => h (List.mem_cons_of_mem c1 m))]
termination_by l => l.length

theorem normNL_of_not_cr {l : List Char} (h : '\r' ∉ l) : normNL l = l := by
  unfold normNL
  rw [replCRLF_of_not_cr h]
  have hid : ∀ c ∈ l, (if c = '\r' then '\n' else c) = c :=
    fun c hc => if_neg (fun e : c = '\r' => h (e ▸ hc))
  calc l.map (fun c => if c = '\r' then '\n' else c) = l.map id :=
        List.map_congr_left hid
    _ = l := List.map_id l

theorem mem_splitChar_subset {sep : Char} {l : List Char} :
    ∀ {p : List Char} {c : Char}, p ∈ splitChar sep l → c ∈ p → c ∈ l := by
  induction l with
  | nil =>
      intro p c hp hc
      simp only [splitChar, List.mem_singleton] at hp
      subst hp; simp at hc
  | cons a rest ih =>
      intro p c hp hc
      by_cases ha : a = sep
      · simp only [splitChar, if_pos ha] at hp
        rcases List.mem_cons.mp hp with rfl | hp2
        · simp at hc
        · exact List.mem_cons_of_mem a (ih hp2 hc)
      · simp only [splitChar, if_neg ha] at hp
        cases hsc : splitChar sep rest with
        | nil => exact absurd hsc (splitChar_ne_nil sep rest)
        | cons s ss =>
            rw [hsc] at hp
            rcases List.mem_cons.mp hp with rfl | hp2
            · rcases List.mem_cons.mp hc with rfl | hc2
              · exact List.mem_cons_self _ _
              · exact List.mem_cons_of_mem _
                  (ih (by rw [hsc]; exact List.mem_cons_self s ss) hc2)
            · exact List.mem_cons_of_mem a
                (ih (by rw [hsc]; exact List.mem_cons_of_mem s hp2) hc)

-- ## Properties of the legacy cleaner

theorem mem_clean1_cases {x : List Char} {c : Char} (h : c ∈ clean1 x) :
    c = ' ' ∨ ∃ p ∈ splitChar '\n' (normNL x), c ∈ p := by
  unfold clean1 at h
  have h1 := mem_collapseDS (mem_strip_subset h)
  rcases mem_joinSp h1 with h2 | ⟨l, hl, hcl⟩
  · exact Or.inl h2
  · rcases List.mem_filter.mp hl with ⟨hl2, _⟩
    rcases List.mem_map.mp hl2 with ⟨p, hp, rfl⟩
    exact Or.inr ⟨p, hp, mem_strip_subset hcl⟩

theorem nl_not_mem_clean1 (x : List Char) : '\n' ∉ clean1 x := by
  intro h
  rcases mem_clean1_cases h with h2 | ⟨p, hp, hcp⟩
  · exact absurd h2 (by decide)
  · exact mem_splitChar_ne_sep hp hcp rfl

theorem cr_not_mem_clean1 (x : List Char) : '\r' ∉ clean1 x := by
  intro h
  rcases mem_clean1_cases h with h2 | ⟨p, hp, hcp⟩
  · exact absurd h2 (by decide)
  · exact not_cr_mem_normNL x (mem_splitChar_subset hp hcp)

theorem hasDS_clean1 (x : List Char) : hasDS (clean1 x) = false :=
  hasDS_strip (hasDS_collapseDS _)

theorem strip_clean1 (x : List Char) : strip (clean1 x) = clean1 x :=
  strip_strip _

/-- The legacy cleaner is idempotent. -/
theorem clean1_idem (x : List Char) : clean1 (clean1 x) = clean1 x := by
  have hnl := nl_not_mem_clean1 x
  have hcr := cr_not_mem_clean1 x
  have h1 : normNL (clean1 x) = clean1 x := normNL_of_not_cr hcr
  have h2 : splitChar '\n' (clean1 x) = [clean1 x] := splitChar_of_not_mem hnl
  show strip (collapseDS (joinSp
    (((splitChar '\n' (normNL (clean1 x))).map strip).filter
      (fun l => ¬ l.isEmpty)))) = clean1 x
  rw [h1, h2]
  by_cases he : (clean1 x).isEmpty
  · have hx : clean1 x = [] := by
      cases hcx : clean1 x with
      | nil => rfl
      | cons a b => rw [hcx] at he; simp [List.isEmpty] at he
    rw [hx]; rfl
  · simp only [List.map, strip_clean1, List.filter]
    rw [show (¬ (clean1 x).isEmpty : Bool) = true by simpa using he]
    show strip (collapseDS (joinSp [clean1 x])) = clean1 x
    show strip (collapseDS (clean1 x)) = clean1 x
    rw [collapseDS_of_not (hasDS_clean1 x), strip_clean1]

-- ## Properties of the upload-path cleaner

theorem collapseWs_true_head {l : List Char} {c : Char} {r : List Char}
    (h : collapseWs true l = c :: r) : isPySpace c = false := by
  induction l with
  | nil => simp [collapseWs] at h
  | cons d rest ih =>
      by_cases hd : isPySpace d
      · rw [collapseWs, if_pos hd, if_pos rfl] at h
        exact ih h
      · rw [collapseWs, if_neg hd] at h
        cases h
        simpa using hd

theorem hasDS_cons_of_ne {hd : Char} {tl : List Char}
    (h1 : (hd == ' ') = false) (h2 : hasDS tl = false) :
    hasDS (hd :: tl) = false := by
  cases tl with
  | nil => simp [hasDS]
  | cons d r => simp only [hasDS, h1, Bool.false_and, Bool.false_or]; exact h2

theorem hasDS_collapseWs (b : Bool) (l : List Char) :
    hasDS (collapseWs b l) = false := by
  induction l generalizing b with
  | nil => simp [collapseWs, hasDS]
  | cons c rest ih =>
      by_cases hc : isPySpace c
      · rw [collapseWs, if_pos hc]
        cases b with
        | true => simpa using ih true
        | false =>
            simp only [if_neg (by simp : ¬ (false = true))]
            cases hz : collapseWs true rest with
            | nil => simp [hasDS]
            | cons d r =>
                have hd : isPySpace d = false := collapseWs_true_head hz
                have hdne : (d == ' ') = false := by
                  cases hde : d == ' '
                  · rfl
                  · have : d = ' ' := by simpa using hde
                    rw [this] at hd; simp [isPySpace] at hd
                simp only [hasDS, Bool.or_eq_false_iff, Bool.and_eq_false_iff]
                constructor
                · right; exact hdne
                · have := ih true; rw [hz] at this; exact this
      · rw [collapseWs, if_neg hc]
        have hcne : (c == ' ') = false := by
          cases hce : c == ' '
          · rfl
          · have : c = ' ' := by simpa using hce
            rw [this] at hc; simp [isPySpace] at hc
        exact hasDS_cons_of_ne hcne (ih false)

theorem mem_collapseWs_ws {c : Char} (hws : isPySpace c = true) :
    ∀ {b : Bool} {l : List Char}, c ∈ collapseWs b l → c = ' ' := by
  intro b l
  induction l generalizing b with
  | nil => intro h; simp [collapseWs] at h
  | cons d rest ih =>
      intro h
      by_cases hd : isPySpace d
      · rw [collapseWs, if_pos hd] at h
        cases b with
        | true => exact ih (by simpa using h)
        | false =>
            simp only [if_neg (by simp : ¬ (false = true))] at h
            rcases List.mem_cons.mp h with rfl | h2
            · rfl
            · exact ih h2
      · rw [collapseWs, if_neg hd] at h
        rcases List.mem_cons.mp h with rfl | h2
        · rw [hws] at hd; exact absurd rfl hd
        · exact ih h2

theorem nl_not_mem_clean2 (x : List Char) : '\n' ∉ clean2 x := by
  intro h
  have h2 := mem_strip_subset h
  have := mem_collapseWs_ws (by decide) h2
  exact absurd this (by decide)

theorem hasDS_clean2 (x : List Char) : hasDS (clean2 x) = false :=
  hasDS_strip (hasDS_collapseWs false _)

-- ## Chunk-count and coverage lemmas

theorem lt_ceilDiv_iff {k n s : Nat} (hs : 0 < s) :
    k < (n + s - 1) / s ↔ k * s < n := by
  rw [Nat.lt_iff_add_one_le, Nat.le_div_iff_mul_le hs, Nat.add_mul, Nat.one_mul]
  have h0 := hs
  generalize k * s = m
  omega

theorem mem_chunkStarts {n step s : Nat} (hstep : 0 < step)
    (h : s ∈ chunkStarts n step) : s < n := by
  rcases List.mem_map.mp h with ⟨k, hk, rfl⟩
  have := List.mem_range.mp hk
  have hlt := (lt_ceilDiv_iff hstep).mp this
  calc k * step ≤ k * step := le_refl _
    _ < n := hlt

theorem mul_mem_chunkStarts {n step k : Nat} (hstep : 0 < step)
    (h : k * step < n) : k * step ∈ chunkStarts n step := by
  exact List.mem_map.mpr ⟨k, List.mem_range.mpr ((lt_ceilDiv_iff hstep).mpr h), rfl⟩

theorem window_ne_nil {tokens : List Nat} {s cs : Nat} (hs : s < tokens.length)
    (hcs : 0 < cs) : ((tokens.drop s).take cs).isEmpty = false := by
  have hlen : ((tokens.drop s).take cs).length = min cs (tokens.length - s) := by
    simp
  have hpos : 0 < ((tokens.drop s).take cs).length := by omega
  cases hw : (tokens.drop s).take cs with
  | nil => rw [hw] at hpos; simp at hpos
  | cons a b => simp

/-- With a positive step and a non-empty token list, the chunker succeeds,
no window is filtered out, and the result is one window per start. -/
theorem split_ok {tokens : List Nat} {cs co : Nat} (hco : co < cs)
    (hne : tokens ≠ []) :
    split_into_token_chunks tokens cs co =
      .ok ((chunkStarts tokens.length (cs - co)).map
        (fun s => (tokens.drop s).take cs)) := by
  unfold split_into_token_chunks
  rw [if_neg (by simpa using hne), if_neg (by omega)]
  congr 1
  apply List.filter_eq_self.mpr
  intro w hw
  rcases List.mem_map.mp hw with ⟨s, hs, rfl⟩
  have hslt : s < tokens.length := mem_chunkStarts (by omega) hs
  have := window_ne_nil hslt (show 0 < cs by omega)
  simp [this]

/-- The number of chunks is `ceil(n / step)`: one window per start below
`n`. -/
theorem split_num_chunks {tokens : List Nat} {cs co : Nat} (hco : co < cs)
    (hne : tokens ≠ []) :
    ∃ l, split_into_token_chunks tokens cs co = .ok l ∧
      l.length = (tokens.length + (cs - co) - 1) / (cs - co) := by
  refine ⟨_, split_ok hco hne, ?_⟩
  simp [chunkStarts]

-- ## Rotating-writer lemmas

theorem runWriter_nil (rb : Chunk → Nat) (hB mB : Nat) (cur : List Chunk) :
    runWriter rb hB mB cur [] = [cur] := rfl

theorem runWriter_cons (rb : Chunk → Nat) (hB mB : Nat) (cur d : List Chunk)
    (ds : List (List Chunk)) :
    runWriter rb hB mB cur (d :: ds) =
      if mB ≤ hB + ((cur ++ d).map rb).sum then
        (cur ++ d) :: runWriter rb hB mB [] ds
      else runWriter rb hB mB (cur ++ d) ds := rfl

/-- The writer partitions the document stream into consecutive groups, one
group per container, each container being exactly its group's rows in
order. -/
theorem runWriter_partition (rb : Chunk → Nat) (hB mB : Nat)
    (docs : List (List Chunk)) :
    ∀ cur : List Chunk,
      ∃ (g : List (List Chunk)) (gs : List (List (List Chunk))),
        docs = g ++ gs.flatten ∧
        runWriter rb hB mB cur docs =
          (cur ++ g.flatten) :: gs.map List.flatten := by
  induction docs with
  | nil => intro cur; exact ⟨[], [], by simp, by simp [runWriter_nil]⟩
  | cons d ds ih =>
      intro cur
      rw [runWriter_cons]
      by_cases hif : mB ≤ hB + ((cur ++ d).map rb).sum
      · obtain ⟨g, gs, hds, hrun⟩ := ih []
        refine ⟨[d], g :: gs, by simp [hds], ?_⟩
        rw [if_pos hif, hrun]
        simp
      · obtain ⟨g, gs, hds, hrun⟩ := ih (cur ++ d)
        refine ⟨d :: g, gs, by simp [hds], ?_⟩
        rw [if_neg hif, hrun]
        simp

-- ## Identifier lemmas

theorem derive_ids_trailing_underscore (stem parent : List Char) :
    (derive_ids_from_path (stem ++ ['_']) parent).1 = [] := by
  unfold derive_ids_from_path
  rw [splitChar_append_sep]
  exact List.getLastD_concat _ _ _

theorem derive_ids_no_underscore {stem : List Char} (h : '_' ∉ stem)
    (parent : List Char) : (derive_ids_from_path stem parent).1 = stem := by
  unfold derive_ids_from_path
  rw [splitChar_of_not_mem h]
  rfl

-- ## Failure-capture lemmas

theorem mem_capture_failed {fos : List FailedObject} {fo : FailedObject} {p : Chunk}
    (hfo : fo ∈ fos)
    (hp : fo.properties = some p ∨ (fo.properties = none ∧ fo.objectProps = some p)) :
    p ∈ capture_failed fos := by
  induction fos with
  | nil => simp at hfo
  | cons f rest ih =>
      rcases List.mem_cons.mp hfo with rfl | hfo2
      · rcases hp with hp1 | ⟨hn, ho⟩
        · simp only [capture_failed, hp1]
          exact List.mem_cons_self _ _
        · simp only [capture_failed, hn, ho]
          exact List.mem_cons_self _ _
      · have hrec := ih hfo2
        simp only [capture_failed]
        cases f.properties with
        | some q => exact List.mem_cons_of_mem q hrec
        | none =>
            cases f.objectProps with
            | some q => exact List.mem_cons_of_mem q hrec
            | none => exact hrec

-- ## Head and tail characters of the cleaners' outputs

theorem clean1_head_ws {x : List Char} {c : Char} {r : List Char}
    (h : clean1 x = c :: r) : isPySpace c = false := by
  unfold clean1 at h
  exact strip_head_not h

theorem clean1_last_ws {x : List Char} {c : Char} {r : List Char}
    (h : (clean1 x).reverse = c :: r) : isPySpace c = false := by
  unfold clean1 at h
  exact strip_reverse_head_not h

theorem clean2_head_ws {x : List Char} {c : Char} {r : List Char}
    (h : clean2 x = c :: r) : isPySpace c = false := by
  unfold clean2 at h
  exact strip_head_not h

theorem clean2_last_ws {x : List Char} {c : Char} {r : List Char}
    (h : (clean2 x).reverse = c :: r) : isPySpace c = false := by
  unfold clean2 at h
  exact strip_reverse_head_not h

-- ## The claims

/-- Claim C1 counterexample: with the default configuration (chunk size
350, overlap 70, step 280) a document of 630 tokens — above the
single-chunk threshold and above the chunk size — produces 3 chunks,
while the claimed formula `ceil((n - CHUNK_SIZE_TOKENS) / step) + 1`
gives 2: the loop keeps starting windows at every multiple of the step
below `n`, even after a window has already reached the end. -/
theorem C1_counterexample :
    (split_into_token_chunks (List.range 630) CHUNK_SIZE_TOKENS
        CHUNK_OVERLAP_TOKENS).map List.length = Except.ok 3 ∧
    (630 - CHUNK_SIZE_TOKENS + (CHUNK_SIZE_TOKENS - CHUNK_OVERLAP_TOKENS) - 1) /
        (CHUNK_SIZE_TOKENS - CHUNK_OVERLAP_TOKENS) + 1 = 2 ∧
    (3 : Nat) ≠ 2 := by
  refine ⟨?_, by decide, by decide⟩
  rw [split_ok (by decide) (by simp [List.range_eq_nil])]
  simp [Except.map, chunkStarts, CHUNK_SIZE_TOKENS, CHUNK_OVERLAP_TOKENS]

/-- Claim C1 (amended): for every token sequence with
`n ≥ MIN_DOC_TOKENS_SINGLE_CHUNK` and `step = chunk_size - overlap > 0`,
the sliding-window segmentation succeeds and the number of chunks equals
`ceil(n / step)` — one chunk per window start below `n` (not
`ceil((n - CHUNK_SIZE_TOKENS)/step) + 1`, and not 1 when
`n ≤ CHUNK_SIZE_TOKENS`). -/
theorem C1_chunk_count (tokens : List Nat) (cs co : Nat) (hco : co < cs)
    (hmin : MIN_DOC_TOKENS_SINGLE_CHUNK ≤ tokens.length) :
    ∃ l, split_into_token_chunks tokens cs co = .ok l ∧
      l.length = (tokens.length + (cs - co) - 1) / (cs - co) := by
  apply split_num_chunks hco
  intro h
  rw [h] at hmin
  simp [MIN_DOC_TOKENS_SINGLE_CHUNK] at hmin

/-- Witness for C1 at a concrete input: 630 tokens with the default
configuration give `ceil(630/280) = 3` chunks. -/
theorem C1_chunk_count_witness :
    CHUNK_OVERLAP_TOKENS < CHUNK_SIZE_TOKENS ∧
    MIN_DOC_TOKENS_SINGLE_CHUNK ≤ (List.range 630).length ∧
    ∃ l, split_into_token_chunks (List.range 630) CHUNK_SIZE_TOKENS
        CHUNK_OVERLAP_TOKENS = .ok l ∧
      l.length = ((List.range 630).length +
        (CHUNK_SIZE_TOKENS - CHUNK_OVERLAP_TOKENS) - 1) /
        (CHUNK_SIZE_TOKENS - CHUNK_OVERLAP_TOKENS) :=
  ⟨by decide, by simp [MIN_DOC_TOKENS_SINGLE_CHUNK],
    C1_chunk_count (List.range 630) CHUNK_SIZE_TOKENS CHUNK_OVERLAP_TOKENS
      (by decide) (by simp [MIN_DOC_TOKENS_SINGLE_CHUNK])⟩

/-- Claim C2: every failed object the remote batch reports — each exposes
the submitted properties either directly or behind an object envelope —
has its original properties present in the replay file, one record per
failed object list entry; and when the reported failure list is empty no
replay file is written. -/
theorem C2_failure_replay (fos : List FailedObject)
    (hshape : ∀ fo ∈ fos, fo.properties.isSome ∨ fo.objectProps.isSome) :
    (∀ fo ∈ fos, ∃ p,
      (fo.properties = some p ∨ (fo.properties = none ∧ fo.objectProps = some p)) ∧
      ∃ lines, replay_file fos = some lines ∧ p ∈ lines) ∧
    (fos = [] → replay_file fos = none) := by
  constructor
  · intro fo hfo
    have hs := hshape fo hfo
    have key : ∃ p,
        fo.properties = some p ∨ (fo.properties = none ∧ fo.objectProps = some p) := by
      cases hp : fo.properties with
      | some p => exact ⟨p, Or.inl rfl⟩
      | none =>
          cases ho : fo.objectProps with
          | some p => exact ⟨p, Or.inr ⟨rfl, rfl⟩⟩
          | none =>
              rw [hp, ho] at hs
              simp at hs
    obtain ⟨p, hp⟩ := key
    have hmem : p ∈ capture_failed fos := mem_capture_failed hfo hp
    have hne : (capture_failed fos).isEmpty = false := by
      cases hcf : capture_failed fos with
      | nil => rw [hcf] at hmem; simp at hmem
      | cons a b => simp
    exact ⟨p, hp, capture_failed fos,
      by simp [replay_file, persist_failed, hne], hmem⟩
  · intro h; subst h; rfl

/-- Witness for C2 at a concrete input: a single failed object exposing
its properties directly lands in the replay file. -/
theorem C2_failure_replay_witness :
    (∀ fo ∈ [FailedObject.mk (some ⟨[], [], [], []⟩) none], ∃ p,
      (fo.properties = some p ∨ (fo.properties = none ∧ fo.objectProps = some p)) ∧
      ∃ lines, replay_file [FailedObject.mk (some ⟨[], [], [], []⟩) none] = some lines ∧
        p ∈ lines) ∧
    ([FailedObject.mk (some ⟨[], [], [], []⟩) none] = ([] : List FailedObject) →
      replay_file [FailedObject.mk (some ⟨[], [], [], []⟩) none] = none) :=
  C2_failure_replay [FailedObject.mk (some ⟨[], [], [], []⟩) none]
    (by intro fo hfo
        rcases List.mem_singleton.mp hfo with rfl
        left; rfl)

/-- Claim C3 counterexample: the upload-path cleaner is not idempotent.
On `"page# 1 of 2"` the junk filter turns `#` into a space, creating the
page marker `"page 1 of 2"`, which only a second pass removes (leaving
the empty string). -/
theorem C3_counterexample :
    clean2 (clean2 ("page# 1 of 2".toList)) ≠ clean2 ("page# 1 of 2".toList) := by
  decide

/-- Claim C3 (amended): the flat-file-path cleaner is idempotent; the
upload-path cleaner is not idempotent in general (its junk-character
removal can create new page markers that only a second pass removes). -/
theorem C3_clean_text_idempotent (x : List Char) :
    clean1 (clean1 x) = clean1 x :=
  clean1_idem x

/-- Claim C4: a processed document that is not skipped (non-empty cleaned
text and, on the upload path, word count not below the minimum) whose
cleaned token count is below `MIN_DOC_TOKENS_SINGLE_CHUNK` yields exactly
one chunk whose text is the full cleaned text and whose `chunk_id` is the
`doc_id` followed by `_c001` — in both modules. -/
theorem C4_single_chunk (encode : List Char → List Nat) (decode : List Nat → List Char)
    (cs co : Nat) (stem parent raw : List Char) :
    ((clean1 raw).isEmpty = false →
      (encode (clean1 raw)).length < MIN_DOC_TOKENS_SINGLE_CHUNK →
      process_file encode decode cs co stem parent raw =
        .ok [⟨(derive_ids_from_path stem parent).1,
          (derive_ids_from_path stem parent).1 ++ ('_' :: 'c' :: '0' :: '0' :: '1' :: []),
          (derive_ids_from_path stem parent).2, clean1 raw⟩]) ∧
    ((clean2 raw).isEmpty = false →
      ¬ countWords (clean2 raw) < MIN_WORDS_PER_DOC →
      (encode (clean2 raw)).length < MIN_DOC_TOKENS_SINGLE_CHUNK →
      generate_chunk_objects_from_file encode decode cs co stem parent raw =
        .ok [⟨(derive_ids_from_path stem parent).1,
          (derive_ids_from_path stem parent).1 ++ ('_' :: 'c' :: '0' :: '0' :: '1' :: []),
          (derive_ids_from_path stem parent).2, clean2 raw⟩]) := by
  have hsuf : chunkSuffix 1 = '_' :: 'c' :: '0' :: '0' :: '1' :: [] := by decide
  constructor
  · intro hne hlen
    unfold process_file
    rw [if_neg (by simp [hne]), if_pos hlen, hsuf]
  · intro hne hw hlen
    unfold generate_chunk_objects_from_file
    rw [if_neg (by simp [hne]), if_neg hw, if_pos hlen, hsuf]

/-- Witness for C4 at a concrete input: a five-word document on the
upload path yields its single full-text chunk with ordinal `_c001`. -/
theorem C4_single_chunk_witness :
    (clean2 ("alpha beta gamma delta epsilon".toList)).isEmpty = false ∧
    ¬ countWords (clean2 ("alpha beta gamma delta epsilon".toList)) < MIN_WORDS_PER_DOC ∧
    (((fun s => s.map Char.toNat) (clean2 ("alpha beta gamma delta epsilon".toList)) :
      List Nat)).length < MIN_DOC_TOKENS_SINGLE_CHUNK ∧
    generate_chunk_objects_from_file (fun s => s.map Char.toNat)
      (fun l => l.map Char.ofNat) CHUNK_SIZE_TOKENS CHUNK_OVERLAP_TOKENS
      ("doc_7".toList) ("001".toList) ("alpha beta gamma delta epsilon".toList) =
      .ok [⟨(derive_ids_from_path ("doc_7".toList) ("001".toList)).1,
        (derive_ids_from_path ("doc_7".toList) ("001".toList)).1 ++
          ('_' :: 'c' :: '0' :: '0' :: '1' :: []),
        (derive_ids_from_path ("doc_7".toList) ("001".toList)).2,
        clean2 ("alpha beta gamma delta epsilon".toList)⟩] :=
  ⟨by decide, by decide, by decide,
    (C4_single_chunk (fun s => s.map Char.toNat) (fun l => l.map Char.ofNat)
      CHUNK_SIZE_TOKENS CHUNK_OVERLAP_TOKENS ("doc_7".toList) ("001".toList)
      ("alpha beta gamma delta epsilon".toList)).2 (by decide) (by decide) (by decide)⟩

/-- Claim C5: the rotating writer emits every chunk of every processed
document exactly once, in document order then chunk order — the
concatenation of the containers equals the concatenation of the document
row lists — and, because the byte-threshold check runs only after a
document's full chunk set is written, the containers partition the
document stream at document boundaries: no document's chunk set is split
across containers, for every row-size function, header size and
threshold. -/
theorem C5_rotating_writer (rb : Chunk → Nat) (hB mB : Nat)
    (docs : List (List Chunk)) :
    (mainContainers rb hB mB docs).flatten = docs.flatten ∧
    ∃ gs : List (List (List Chunk)), docs = gs.flatten ∧
      mainContainers rb hB mB docs = gs.map List.flatten := by
  obtain ⟨g, gs, hd, hr⟩ := runWriter_partition rb hB mB docs []
  have hmain : mainContainers rb hB mB docs = g.flatten :: gs.map List.flatten := by
    unfold mainContainers
    rw [hr]
    simp
  constructor
  · rw [hmain, hd]
    simp [List.flatten_flatten]
  · exact ⟨g :: gs, by simpa using hd, by simpa using hmain⟩

/-- Claim C6 counterexample: with overlap equal to chunk size (step 0), a
short document — below the single-chunk token threshold — is chunked
without any error: the configuration error is not raised for every
document, and the run is not aborted before processing begins. -/
theorem C6_counterexample :
    generate_chunk_objects_from_file (fun s => s.map Char.toNat)
      (fun l => l.map Char.ofNat) CHUNK_SIZE_TOKENS CHUNK_SIZE_TOKENS
      ("doc_9".toList) ("002".toList) ("one two three four five".toList) =
      .ok [⟨('9' :: []), ('9' :: '_' :: 'c' :: '0' :: '0' :: '1' :: []),
        "002".toList, "one two three four five".toList⟩] := by
  decide

/-- Claim C6 (amended): when overlap ≥ chunk size, the `ValueError` is
raised by the chunker on each document that reaches the sliding-window
branch (non-empty cleaned text, word count not below the minimum on the
upload path, token count at least `MIN_DOC_TOKENS_SINGLE_CHUNK`), and it
propagates out of the per-document processing uncaught — aborting the run
at the first such document rather than before processing begins;
documents below the threshold never raise it. -/
theorem C6_step_error (encode : List Char → List Nat) (decode : List Nat → List Char)
    (cs co : Nat) (stem parent raw : List Char) (hstep : cs ≤ co) :
    ((clean1 raw).isEmpty = false →
      MIN_DOC_TOKENS_SINGLE_CHUNK ≤ (encode (clean1 raw)).length →
      process_file encode decode cs co stem parent raw =
        .error "chunk_overlap must be smaller than chunk_size") ∧
    ((clean2 raw).isEmpty = false →
      ¬ countWords (clean2 raw) < MIN_WORDS_PER_DOC →
      MIN_DOC_TOKENS_SINGLE_CHUNK ≤ (encode (clean2 raw)).length →
      generate_chunk_objects_from_file encode decode cs co stem parent raw =
        .error "chunk_overlap must be smaller than chunk_size") := by
  constructor
  · intro hne hlen
    unfold process_file
    rw [if_neg (by simp [hne]), if_neg (by omega)]
    have htok : (encode (clean1 raw)).isEmpty = false := by
      cases he : encode (clean1 raw) with
      | nil => rw [he] at hlen; simp [MIN_DOC_TOKENS_SINGLE_CHUNK] at hlen
      | cons a b => simp
    unfold split_into_token_chunks
    rw [if_neg (by simp [htok]), if_pos hstep]
    rfl
  · intro hne hw hlen
    unfold generate_chunk_objects_from_file
    rw [if_neg (by simp [hne]), if_neg hw, if_neg (by omega)]
    have htok : (encode (clean2 raw)).isEmpty = false := by
      cases he : encode (clean2 raw) with
      | nil => rw [he] at hlen; simp [MIN_DOC_TOKENS_SINGLE_CHUNK] at hlen
      | cons a b => simp
    unfold split_into_token_chunks
    rw [if_neg (by simp [htok]), if_pos hstep]
    rfl

/-- Witness for C6 at a concrete input: a long-enough document under the
misconfiguration makes `process_file` return the `ValueError`. -/
theorem C6_step_error_witness :
    CHUNK_SIZE_TOKENS ≤ CHUNK_SIZE_TOKENS ∧
    (clean1 ("w x y z".toList)).isEmpty = false ∧
    MIN_DOC_TOKENS_SINGLE_CHUNK ≤ (List.range 220).length ∧
    process_file (fun _ => List.range 220) (fun _ => [])
      CHUNK_SIZE_TOKENS CHUNK_SIZE_TOKENS ("doc_1".toList) ("001".toList)
      ("w x y z".toList) =
      .error "chunk_overlap must be smaller than chunk_size" :=
  ⟨le_refl _, by decide, by simp [MIN_DOC_TOKENS_SINGLE_CHUNK],
    (C6_step_error (fun _ => List.range 220) (fun _ => [])
      CHUNK_SIZE_TOKENS CHUNK_SIZE_TOKENS ("doc_1".toList) ("001".toList)
      ("w x y z".toList) (le_refl _)).1 (by decide)
      (by simp [MIN_DOC_TOKENS_SINGLE_CHUNK])⟩

/-- Claim C7 (code bug): the upload cleaner does not normalize curly
quotes to straight quotes — the junk filter runs first and replaces every
curly quote with a space, so the straight-quote substitutions that follow
never fire.  On `"don’t"` the output is `"don t"` with no straight
apostrophe; curly double quotes likewise leave no straight double
quote. -/
theorem C7_curly_quotes_removed_not_normalized :
    clean2 ("don".toList ++ [curlyApos] ++ "t".toList) = "don t".toList ∧
    (clean2 ("don".toList ++ [curlyApos] ++ "t".toList)).contains '\'' = false ∧
    (clean2 ([curlyOpenQ] ++ "q".toList ++ [curlyCloseQ])).contains '"' = false := by
  decide

/-- Claim C8: both cleaners return text containing no newline and no two
consecutive spaces, with no leading or trailing whitespace. -/
theorem C8_cleaners_normalized (x : List Char) :
    ((clean1 x).contains '\n' = false ∧ hasDS (clean1 x) = false ∧
      ((clean1 x).head?.all fun c => ! isPySpace c) = true ∧
      ((clean1 x).reverse.head?.all fun c => ! isPySpace c) = true) ∧
    ((clean2 x).contains '\n' = false ∧ hasDS (clean2 x) = false ∧
      ((clean2 x).head?.all fun c => ! isPySpace c) = true ∧
      ((clean2 x).reverse.head?.all fun c => ! isPySpace c) = true) := by
  refine ⟨⟨?_, hasDS_clean1 x, ?_, ?_⟩, ?_, hasDS_clean2 x, ?_, ?_⟩
  · simpa using nl_not_mem_clean1 x
  · cases h : clean1 x with
    | nil => simp
    | cons c r => simp [clean1_head_ws h]
  · cases h : (clean1 x).reverse with
    | nil => simp
    | cons c r => simp [clean1_last_ws h]
  · simpa using nl_not_mem_clean2 x
  · cases h : clean2 x with
    | nil => simp
    | cons c r => simp [clean2_head_ws h]
  · cases h : (clean2 x).reverse with
    | nil => simp
    | cons c r => simp [clean2_last_ws h]

/-- Claim C9: in the sliding-window branch no token is lost — for every
index `i` below the token count there is an emitted window, starting at a
multiple `k·step` of the step below the token count, that contains
position `i` (`k·step ≤ i < k·step + chunk_size`). -/
theorem C9_window_coverage (tokens : List Nat) (cs co : Nat) (hco : co < cs)
    (i : Nat) (hi : i < tokens.length) :
    ∃ l, split_into_token_chunks tokens cs co = .ok l ∧
      ∃ k, ((tokens.drop (k * (cs - co))).take cs) ∈ l ∧
        k * (cs - co) < tokens.length ∧ k * (cs - co) ≤ i ∧
        i < k * (cs - co) + cs := by
  have hne : tokens ≠ [] := by
    intro h; rw [h] at hi; simp at hi
  have hstep : 0 < cs - co := by omega
  have h2 : i / (cs - co) * (cs - co) ≤ i := Nat.div_mul_le_self i (cs - co)
  have h3 : i < i / (cs - co) * (cs - co) + (cs - co) := by
    have hmod : (cs - co) * (i / (cs - co)) + i % (cs - co) = i :=
      Nat.div_add_mod i (cs - co)
    have hmlt : i % (cs - co) < cs - co := Nat.mod_lt i hstep
    calc i = (cs - co) * (i / (cs - co)) + i % (cs - co) := hmod.symm
      _ < (cs - co) * (i / (cs - co)) + (cs - co) := Nat.add_lt_add_left hmlt _
      _ = i / (cs - co) * (cs - co) + (cs - co) := by rw [Nat.mul_comm]
  have hklt : i / (cs - co) * (cs - co) < tokens.length := lt_of_le_of_lt h2 hi
  refine ⟨_, split_ok hco hne, i / (cs - co), ?_, hklt, h2, ?_⟩
  · exact List.mem_map.mpr
      ⟨i / (cs - co) * (cs - co), mul_mem_chunkStarts hstep hklt, rfl⟩
  · have hsub : cs - co ≤ cs := Nat.sub_le cs co
    generalize i / (cs - co) * (cs - co) = m at h3 ⊢
    omega

/-- Witness for C9 at a concrete input: token index 5 of a 300-token
document lies in the first window. -/
theorem C9_window_coverage_witness :
    CHUNK_OVERLAP_TOKENS < CHUNK_SIZE_TOKENS ∧ 5 < (List.range 300).length ∧
    ∃ l, split_into_token_chunks (List.range 300) CHUNK_SIZE_TOKENS
        CHUNK_OVERLAP_TOKENS = .ok l ∧
      ∃ k, (((List.range 300).drop
          (k * (CHUNK_SIZE_TOKENS - CHUNK_OVERLAP_TOKENS))).take
          CHUNK_SIZE_TOKENS) ∈ l ∧
        k * (CHUNK_SIZE_TOKENS - CHUNK_OVERLAP_TOKENS) < (List.range 300).length ∧
        k * (CHUNK_SIZE_TOKENS - CHUNK_OVERLAP_TOKENS) ≤ 5 ∧
        5 < k * (CHUNK_SIZE_TOKENS - CHUNK_OVERLAP_TOKENS) + CHUNK_SIZE_TOKENS :=
  ⟨by decide, by simp,
    C9_window_coverage (List.range 300) CHUNK_SIZE_TOKENS CHUNK_OVERLAP_TOKENS
      (by decide) 5 (by simp)⟩

/-- Claim C10: `derive_ids_from_path` is total and validates nothing: the
returned `source_group` is always the parent name; a stem ending in an
underscore yields the empty `doc_id`, so the chunk id collapses to
`_c001`; and a stem without underscores is returned whole as the
`doc_id`. -/
theorem C10_derive_ids (stem parent : List Char) :
    (derive_ids_from_path stem parent).2 = parent ∧
    (derive_ids_from_path (stem ++ ['_']) parent).1 = [] ∧
    (derive_ids_from_path (stem ++ ['_']) parent).1 ++ chunkSuffix 1 =
      '_' :: 'c' :: '0' :: '0' :: '1' :: [] ∧
    ('_' ∉ stem → (derive_ids_from_path stem parent).1 = stem) := by
  refine ⟨rfl, derive_ids_trailing_underscore stem parent, ?_,
    fun h => derive_ids_no_underscore h parent⟩
  rw [derive_ids_trailing_underscore stem parent]
  decide

/-- Witness for C10 at a concrete input: an underscore-free stem is
returned whole as the `doc_id`. -/
theorem C10_derive_ids_witness :
    (derive_ids_from_path ('a' :: 'b' :: []) ('0' :: '0' :: '1' :: [])).1 =
      'a' :: 'b' :: [] :=
  (C10_derive_ids ('a' :: 'b' :: []) ('0' :: '0' :: '1' :: [])).2.2.2 (by decide)
